import Mathlib

/-!
Shallow embedding of the cleaning engine of `src/app.py` (`clean_data`).

A pandas `DataFrame` is modelled as an ordered list of named columns; each
column carries a representation tag (the dtype) and a list of cells, a cell
being either a present value or the missing marker (`none`, modelling `NaN`).
The pandas library primitives the code calls (`mean`, `mode`, `fillna`,
`drop_duplicates`, `to_numeric`, `to_datetime`) are embedded as Lean
functions following the library's documented semantics; `clean_data` itself
is translated stage by stage.
-/

/-- Representation tag of a column: the dtype of a pandas column, coarsened to
the kinds the engine distinguishes.  `numeric` covers the `np.number` dtypes
(int64/float64), `textual` is the generic `object` dtype, `temporal` the
naive `datetime64` dtype. -/
inductive Dtype where
  | numeric
  | textual
  | temporal
  | boolean
  | other
deriving DecidableEq, Repr

/-- A present cell value.  Numbers are modelled as exact rationals (the code's
floats), text as strings, temporal values by an integer encoding of the
parsed timestamp fields. -/
inductive Val where
  | vnum (q : ℚ)
  | vstr (s : String)
  | vbool (b : Bool)
  | vdate (ts : ℤ)
deriving DecidableEq, Repr

/-- A column: a name, a representation tag, and one cell per row; `none` is
the missing marker (`NaN`). -/
structure Column where
  name : String
  rep : Dtype
  cells : List (Option Val)
deriving DecidableEq, Repr

/-- A table is an ordered list of columns, rows aligned by position. -/
abbrev Table := List Column

/-- The values of the non-missing cells, in row order. -/
def presentVals (cells : List (Option Val)) : List Val :=
  cells.filterMap id

/-- The numeric values among the non-missing cells, in row order (pandas
skips `NaN` when computing a column mean). -/
def numVals (cells : List (Option Val)) : List ℚ :=
  cells.filterMap fun c =>
    match c with
    | some (Val.vnum q) => some q
    | _ => none

/-- Mean of the non-missing numeric cells (`Series.mean()`); `none` when no
non-missing value exists (pandas returns `NaN` there, and `fillna(NaN)`
fills nothing). -/
def meanOpt (cells : List (Option Val)) : Option ℚ :=
  match numVals cells with
  | [] => none
  | q :: qs => some ((q :: qs).sum / (q :: qs).length)

/-- Replace every missing cell with `v`, leaving present cells unchanged
(`Series.fillna(v)`). -/
def fillMissing (cells : List (Option Val)) (v : Val) : List (Option Val) :=
  cells.map fun c =>
    match c with
    | none => some v
    | some x => some x

/-- Whether the column has at least one missing cell (`Series.isna().any()`). -/
def hasMissing (cells : List (Option Val)) : Bool :=
  cells.contains none

theorem hasMissing_eq_true {cells : List (Option Val)} :
    hasMissing cells = true ↔ none ∈ cells := by
  simp [hasMissing]

theorem hasMissing_eq_false {cells : List (Option Val)} :
    hasMissing cells = false ↔ none ∉ cells := by
  simp [hasMissing]

/-- One pass over `l` keeping each element not seen before, threading the set
of elements already seen (the way a hash-based duplicate scan works). -/
def dedupFirstAux {α : Type} [DecidableEq α] (seen : List α) : List α → List α
  | [] => []
  | a :: l => if a ∈ seen then dedupFirstAux seen l else a :: dedupFirstAux (a :: seen) l

/-- The distinct elements of a list in order of first appearance: keep the
first occurrence of each element, drop every later duplicate. -/
def dedupFirst {α : Type} [DecidableEq α] (l : List α) : List α :=
  dedupFirstAux [] l

theorem dedupFirstAux_congr {α : Type} [DecidableEq α] {s₁ s₂ : List α}
    (h : ∀ x, x ∈ s₁ ↔ x ∈ s₂) : ∀ l : List α, dedupFirstAux s₁ l = dedupFirstAux s₂ l
  | [] => rfl
  | a :: l => by
    by_cases ha : a ∈ s₁
    · rw [dedupFirstAux, dedupFirstAux, if_pos ha, if_pos ((h a).1 ha)]
      exact dedupFirstAux_congr h l
    · rw [dedupFirstAux, dedupFirstAux, if_neg ha, if_neg (fun hc => ha ((h a).2 hc))]
      refine congrArg _ (dedupFirstAux_congr ?_ l)
      intro x
      simp [h x]

theorem dedupFirstAux_filter {α : Type} [DecidableEq α] (a : α) :
    ∀ (l : List α) (seen : List α),
      dedupFirstAux (a :: seen) l = dedupFirstAux seen (l.filter fun x => decide (x ≠ a))
  | [], _ => rfl
  | b :: l, seen => by
    by_cases hba : b = a
    · subst hba
      rw [dedupFirstAux, if_pos (by simp), List.filter_cons_of_neg (by simp)]
      exact dedupFirstAux_filter b l seen
    · rw [List.filter_cons_of_pos (by simp [hba]), dedupFirstAux, dedupFirstAux]
      by_cases hbs : b ∈ seen
      · rw [if_pos (by simp [hbs]), if_pos hbs]
        exact dedupFirstAux_filter a l seen
      · rw [if_neg (by simp [hba, hbs]), if_neg hbs]
        refine congrArg _ ?_
        rw [@dedupFirstAux_congr _ _ (b :: a :: seen) (a :: b :: seen)
          (by intro x; simp; tauto) l]
        rw [dedupFirstAux_filter a l (b :: seen)]

theorem dedupFirst_nil {α : Type} [DecidableEq α] : dedupFirst ([] : List α) = [] := rfl

theorem dedupFirst_cons {α : Type} [DecidableEq α] (a : α) (l : List α) :
    dedupFirst (a :: l) = a :: dedupFirst (l.filter fun x => decide (x ≠ a)) := by
  unfold dedupFirst
  rw [dedupFirstAux, if_neg (by simp)]
  exact congrArg _ (dedupFirstAux_filter a l [])

theorem mem_dedupFirst {α : Type} [DecidableEq α] {x : α} :
    ∀ {l : List α}, x ∈ dedupFirst l ↔ x ∈ l
  | [] => by simp [dedupFirst_nil]
  | a :: l => by
    rw [dedupFirst_cons]
    by_cases hxa : x = a
    · subst hxa; simp
    · simp only [List.mem_cons, hxa, false_or]
      rw [mem_dedupFirst (l := l.filter fun x => decide (x ≠ a))]
      simp [List.mem_filter, hxa]
termination_by l => l.length
decreasing_by
  simp only [List.length_cons, Nat.lt_succ_iff]
  exact List.length_filter_le _ _

theorem dedupFirst_sublist {α : Type} [DecidableEq α] :
    ∀ (l : List α), (dedupFirst l).Sublist l
  | [] => by simp [dedupFirst_nil]
  | a :: l => by
    rw [dedupFirst_cons]
    exact List.Sublist.cons₂ a
      ((dedupFirst_sublist (l.filter fun x => decide (x ≠ a))).trans
        (List.filter_sublist l))
termination_by l => l.length
decreasing_by
  simp only [List.length_cons, Nat.lt_succ_iff]
  exact List.length_filter_le _ _

theorem dedupFirst_nodup {α : Type} [DecidableEq α] :
    ∀ (l : List α), (dedupFirst l).Nodup
  | [] => by simp [dedupFirst_nil]
  | a :: l => by
    rw [dedupFirst_cons]
    refine List.nodup_cons.2 ⟨?_, dedupFirst_nodup _⟩
    intro ha
    have := (mem_dedupFirst.1 ha)
    simp [List.mem_filter] at this
termination_by l => l.length
decreasing_by
  simp only [List.length_cons, Nat.lt_succ_iff]
  exact List.length_filter_le _ _

theorem dedupFirst_of_nodup {α : Type} [DecidableEq α] :
    ∀ {l : List α}, l.Nodup → dedupFirst l = l
  | [], _ => dedupFirst_nil
  | a :: l, h => by
    rw [dedupFirst_cons]
    have ha : a ∉ l := (List.nodup_cons.1 h).1
    have hfl : (l.filter fun x => decide (x ≠ a)) = l := by
      apply List.filter_eq_self.2
      intro x hx
      simp only [decide_eq_true_eq]
      intro hxa; exact ha (hxa ▸ hx)
    rw [hfl, dedupFirst_of_nodup (List.nodup_cons.1 h).2]
termination_by l => l.length

/-- Lexicographic comparison of character sequences by code point, the order
`np.sort` applies to an array of strings. -/
def strLtB : List Char → List Char → Bool
  | [], [] => false
  | [], _ :: _ => true
  | _ :: _, [] => false
  | a :: as, b :: bs =>
    if a.toNat < b.toNat then true
    else if b.toNat < a.toNat then false
    else strLtB as bs

theorem strLtB_cons_iff (a b : Char) (as bs : List Char) :
    strLtB (a :: as) (b :: bs) = true ↔
      a.toNat < b.toNat ∨ (a.toNat = b.toNat ∧ strLtB as bs = true) := by
  simp only [strLtB]
  by_cases h1 : a.toNat < b.toNat
  · simp [h1]
  · by_cases h2 : b.toNat < a.toNat
    · simp only [if_neg h1, if_pos h2]
      constructor
      · intro h; exact absurd h (by simp)
      · intro h; omega
    · have heq : a.toNat = b.toNat := by omega
      simp [h1, h2, heq]

theorem strLtB_irrefl : ∀ l : List Char, strLtB l l = false
  | [] => rfl
  | a :: l => by
    simp only [strLtB, lt_irrefl, if_neg (lt_irrefl a.toNat)]
    simpa using strLtB_irrefl l

theorem strLtB_trans : ∀ (l₁ l₂ l₃ : List Char), strLtB l₁ l₂ = true →
    strLtB l₂ l₃ = true → strLtB l₁ l₃ = true
  | [], [], _, h1, _ => by cases h1
  | [], _ :: _, [], _, h2 => by cases h2
  | [], _ :: _, _ :: _, _, _ => rfl
  | _ :: _, [], _, h1, _ => by cases h1
  | _ :: _, _ :: _, [], _, h2 => by cases h2
  | a :: as, b :: bs, c :: cs, h1, h2 => by
    rw [strLtB_cons_iff] at h1 h2 ⊢
    rcases h1 with h1 | ⟨he1, hs1⟩
    · rcases h2 with h2 | ⟨he2, hs2⟩
      · exact Or.inl (by omega)
      · exact Or.inl (by omega)
    · rcases h2 with h2 | ⟨he2, hs2⟩
      · exact Or.inl (by omega)
      · exact Or.inr ⟨by omega, strLtB_trans as bs cs hs1 hs2⟩

theorem strLtB_false_iff (a b : Char) (as bs : List Char) :
    strLtB (a :: as) (b :: bs) = false ↔
      b.toNat < a.toNat ∨ (a.toNat = b.toNat ∧ strLtB as bs = false) := by
  rw [← Bool.not_eq_true, strLtB_cons_iff]
  constructor
  · intro h
    push_neg at h
    rcases Nat.lt_trichotomy a.toNat b.toNat with hlt | heq | hgt
    · exact absurd hlt (by omega)
    · exact Or.inr ⟨heq, by simpa using h.2 heq⟩
    · exact Or.inl hgt
  · intro h
    push_neg
    rcases h with h | ⟨heq, hs⟩
    · exact ⟨by omega, fun he => absurd he (by omega)⟩
    · exact ⟨by omega, fun _ => by simp [hs]⟩

theorem strLtB_lt_of_lt_of_not_lt : ∀ (l₁ l₂ l₃ : List Char), strLtB l₁ l₂ = true →
    strLtB l₃ l₂ = false → strLtB l₁ l₃ = true
  | [], [], _, h1, _ => by cases h1
  | [], _ :: _, [], _, h2 => by cases h2
  | [], _ :: _, _ :: _, _, _ => rfl
  | _ :: _, [], _, h1, _ => by cases h1
  | _ :: _, _ :: _, [], _, h2 => by cases h2
  | a :: as, b :: bs, c :: cs, h1, h2 => by
    rw [strLtB_cons_iff] at h1 ⊢
    rw [strLtB_false_iff] at h2
    rcases h1 with h1 | ⟨he1, hs1⟩
    · rcases h2 with h2 | ⟨he2, hs2⟩
      · exact Or.inl (by omega)
      · exact Or.inl (by omega)
    · rcases h2 with h2 | ⟨he2, hs2⟩
      · exact Or.inl (by omega)
      · exact Or.inr ⟨by omega, strLtB_lt_of_lt_of_not_lt as bs cs hs1 hs2⟩

/-- Total comparison on cell values, modelling the ordering `np.sort` uses on
the array of tied mode candidates: within a kind, the natural order (strings
lexicographically by code point); across kinds, an arbitrary fixed rank. -/
def valLt : Val → Val → Bool
  | Val.vnum a, Val.vnum b => decide (a < b)
  | Val.vstr a, Val.vstr b => strLtB a.toList b.toList
  | Val.vbool a, Val.vbool b => decide (a.toNat < b.toNat)
  | Val.vdate a, Val.vdate b => decide (a < b)
  | Val.vnum _, _ => true
  | _, Val.vnum _ => false
  | Val.vstr _, _ => true
  | _, Val.vstr _ => false
  | Val.vbool _, _ => true
  | _, Val.vbool _ => false

theorem valLt_trans {a b c : Val} (hab : valLt a b = true) (hbc : valLt b c = true) :
    valLt a c = true := by
  cases a <;> cases b <;> cases c <;>
    simp_all only [valLt, decide_eq_true_eq] <;>
    first
      | exact lt_trans hab hbc
      | exact strLtB_trans _ _ _ hab hbc
      | rfl
      | exact (Bool.false_ne_true hab).elim
      | exact (Bool.false_ne_true hbc).elim

theorem valLt_irrefl (a : Val) : valLt a a = false := by
  cases a <;> simp [valLt, strLtB_irrefl]

theorem valLt_of_valLt_of_not_valLt {a b c : Val} (h1 : valLt a b = true)
    (h2 : valLt c b = false) : valLt a c = true := by
  cases a <;> cases b <;> cases c <;>
    simp_all only [valLt, decide_eq_true_eq, decide_eq_false_iff_not] <;>
    first
      | exact lt_of_lt_of_le h1 (le_of_not_lt h2)
      | exact strLtB_lt_of_lt_of_not_lt _ _ _ h1 (by simpa using h2)
      | rfl
      | exact (Bool.false_ne_true h1).elim
      | exact (h2 rfl).elim
      | exact absurd h2 (by simp)

/-- The highest multiplicity attained by any value in `l`. -/
def maxCount (l : List Val) : ℕ :=
  ((dedupFirst l).map fun v => l.count v).foldr max 0

/-- The values of `l` whose multiplicity is maximal, in order of first
appearance (the set of modes). -/
def modeCands (l : List Val) : List Val :=
  (dedupFirst l).filter fun v => decide (l.count v = maxCount l)

/-- Smallest element of a nonempty candidate list under `valLt`. -/
def minVal (v : Val) (vs : List Val) : Val :=
  vs.foldl (fun a b => if valLt b a then b else a) v

/-- The value `Series.mode()[0]` selects: pandas computes the set of most
frequent non-missing values, sorts it, and the code takes index 0, i.e. the
smallest mode under the sort order; `none` when no non-missing value exists
(then `mode()` is empty and the code skips the fill). -/
def modeVal (l : List Val) : Option Val :=
  match modeCands l with
  | [] => none
  | v :: vs => some (minVal v vs)

theorem fillMissing_length (cells : List (Option Val)) (v : Val) :
    (fillMissing cells v).length = cells.length := by
  simp [fillMissing]

theorem none_not_mem_fillMissing (cells : List (Option Val)) (v : Val) :
    none ∉ fillMissing cells v := by
  intro h
  simp only [fillMissing, List.mem_map] at h
  obtain ⟨c, _, hc⟩ := h
  cases c <;> simp at hc

theorem fillMissing_getD_some {cells : List (Option Val)} {i : ℕ} {x : Val} (v : Val)
    (h : cells.getD i none = some x) :
    (fillMissing cells v).getD i none = some x := by
  by_cases hi : i < cells.length
  · rw [List.getD_eq_getElem _ _ hi] at h
    rw [List.getD_eq_getElem _ _ (by simpa [fillMissing_length] using hi)]
    simp [fillMissing, h]
  · rw [List.getD_eq_default _ _ (le_of_not_lt hi)] at h
    cases h

theorem fillMissing_getD_none {cells : List (Option Val)} {i : ℕ} (v : Val)
    (hi : i < cells.length) (h : cells.getD i none = none) :
    (fillMissing cells v).getD i none = some v := by
  rw [List.getD_eq_getElem _ _ hi] at h
  rw [List.getD_eq_getElem _ _ (by simpa [fillMissing_length] using hi)]
  simp [fillMissing, h]

theorem mem_presentVals {v : Val} {cells : List (Option Val)} :
    v ∈ presentVals cells ↔ some v ∈ cells := by
  simp [presentVals, List.mem_filterMap]

theorem mem_numVals {q : ℚ} {cells : List (Option Val)} :
    q ∈ numVals cells ↔ some (Val.vnum q) ∈ cells := by
  simp only [numVals, List.mem_filterMap]
  constructor
  · rintro ⟨a, ha, hq⟩
    rcases a with _ | v
    · simp at hq
    · cases v <;> simp_all
  · intro h
    exact ⟨some (Val.vnum q), h, rfl⟩

theorem meanOpt_eq_some {cells : List (Option Val)} (h : numVals cells ≠ []) :
    meanOpt cells = some ((numVals cells).sum / (numVals cells).length) := by
  unfold meanOpt
  cases hnv : numVals cells with
  | nil => exact absurd hnv h
  | cons q qs => simp

theorem meanOpt_eq_none {cells : List (Option Val)} (h : numVals cells = []) :
    meanOpt cells = none := by
  unfold meanOpt
  rw [h]

theorem foldr_max_mem : ∀ {L : List ℕ}, L ≠ [] → L.foldr max 0 ∈ L
  | [], h => absurd rfl h
  | [x], _ => by simp
  | x :: y :: L, _ => by
    simp only [List.foldr_cons]
    rcases le_total x ((y :: L).foldr max 0) with h | h
    · rw [max_eq_right (by simpa using h)]
      exact List.mem_cons_of_mem _ (foldr_max_mem (by simp))
    · rw [max_eq_left (by simpa using h)]
      simp

theorem le_foldr_max {a : ℕ} : ∀ {L : List ℕ}, a ∈ L → a ≤ L.foldr max 0
  | [], h => absurd h (by simp)
  | x :: L, h => by
    simp only [List.foldr_cons]
    rcases List.mem_cons.1 h with rfl | h'
    · exact le_max_left _ _
    · exact le_trans (le_foldr_max h') (le_max_right _ _)

theorem count_le_maxCount {v : Val} {l : List Val} (h : v ∈ l) :
    l.count v ≤ maxCount l := by
  exact le_foldr_max (List.mem_map_of_mem _ (mem_dedupFirst.2 h))

theorem mem_modeCands {v : Val} {l : List Val} :
    v ∈ modeCands l ↔ v ∈ l ∧ l.count v = maxCount l := by
  simp [modeCands, List.mem_filter, mem_dedupFirst]

theorem modeCands_ne_nil {l : List Val} (h : l ≠ []) : modeCands l ≠ [] := by
  have hd : dedupFirst l ≠ [] := by
    cases l with
    | nil => exact absurd rfl h
    | cons a l => rw [dedupFirst_cons]; simp
  have hmm : maxCount l ∈ (dedupFirst l).map fun v => l.count v := by
    apply foldr_max_mem
    simpa using hd
  obtain ⟨v, hv, hcv⟩ := List.mem_map.1 hmm
  intro hc
  have hvc : v ∈ modeCands l := List.mem_filter.2 ⟨hv, by simp [hcv]⟩
  rw [hc] at hvc
  simp at hvc

theorem minVal_mem (v : Val) (vs : List Val) : minVal v vs ∈ v :: vs := by
  induction vs generalizing v with
  | nil => simp [minVal]
  | cons b vs ih =>
    have hrw : minVal v (b :: vs) = minVal (if valLt b v then b else v) vs := by
      simp only [minVal, List.foldl_cons]
    rw [hrw]
    rcases List.mem_cons.1 (ih (if valLt b v then b else v)) with h | h
    · rw [h]
      by_cases hb : valLt b v <;> simp [hb]
    · exact List.mem_cons_of_mem _ (List.mem_cons_of_mem _ h)

theorem minVal_not_lt {v : Val} {vs : List Val} :
    ∀ x ∈ v :: vs, valLt x (minVal v vs) = false := by
  induction vs generalizing v with
  | nil =>
    intro x hx
    rcases List.mem_cons.1 hx with rfl | h
    · simpa [minVal] using valLt_irrefl x
    · simp at h
  | cons b vs ih =>
    intro x hx
    have hrw : minVal v (b :: vs) = minVal (if valLt b v then b else v) vs := by
      simp only [minVal, List.foldl_cons]
    rw [hrw]
    by_cases hb : valLt b v
    · rw [if_pos hb] at hrw ⊢
      rcases List.mem_cons.1 hx with rfl | hx'
      · -- x = v, the discarded larger element
        by_contra hxlt
        have hxlt' : valLt x (minVal b vs) = true := by
          revert hxlt
          cases valLt x (minVal b vs) <;> simp
        have hbm : valLt b (minVal b vs) = false := ih b (by simp)
        -- b < v (= x) and v < min, so b < min: contradiction with hbm
        have : valLt b (minVal b vs) = true := valLt_trans hb hxlt'
        rw [hbm] at this
        exact Bool.false_ne_true this
      · rcases List.mem_cons.1 hx' with rfl | hx''
        · exact ih _ (by simp)
        · exact ih _ (by simp [hx''])
    · rw [if_neg hb] at hrw ⊢
      have hbf : valLt b v = false := by
        revert hb
        cases valLt b v <;> simp
      rcases List.mem_cons.1 hx with rfl | hx'
      · exact ih _ (by simp)
      · rcases List.mem_cons.1 hx' with rfl | hx''
        · -- x = b, the discarded element: b is not below v, and min ≤ v
          by_contra hxlt
          have hxlt' : valLt x (minVal v vs) = true := by
            revert hxlt
            cases valLt x (minVal v vs) <;> simp
          have hvm : valLt v (minVal v vs) = false := ih v (by simp)
          -- x < min and ¬(v < min) gives x < v, contradicting hbf
          have : valLt x v = true := valLt_of_valLt_of_not_valLt hxlt' hvm
          rw [hbf] at this
          exact Bool.false_ne_true this
        · exact ih _ (by simp [hx''])

theorem modeVal_spec {l : List Val} {m : Val} (h : modeVal l = some m) :
    m ∈ l ∧ l.count m = maxCount l ∧
      ∀ x ∈ l, l.count x = maxCount l → valLt x m = false := by
  unfold modeVal at h
  cases hc : modeCands l with
  | nil => rw [hc] at h; cases h
  | cons v vs =>
    rw [hc] at h
    have hm : m = minVal v vs := by
      injection h with h'
      exact h'.symm
    have hmem : m ∈ modeCands l := by
      rw [hc, hm]
      exact minVal_mem v vs
    have hprops := mem_modeCands.1 hmem
    refine ⟨hprops.1, hprops.2, ?_⟩
    intro x hx hcx
    have hxc : x ∈ modeCands l := mem_modeCands.2 ⟨hx, hcx⟩
    rw [hc] at hxc
    rw [hm]
    exact minVal_not_lt x hxc

theorem modeVal_isSome {l : List Val} (h : l ≠ []) : ∃ m, modeVal l = some m := by
  unfold modeVal
  cases hc : modeCands l with
  | nil => exact absurd hc (modeCands_ne_nil h)
  | cons v vs => exact ⟨minVal v vs, rfl⟩

theorem modeVal_eq_none {l : List Val} (h : l = []) : modeVal l = none := by
  subst h
  simp [modeVal, modeCands, dedupFirst_nil]

/-- Imputation of one column, as the two fill loops of `clean_data` perform
it: a numeric-dtype column with a missing cell is filled with the column
mean (a no-op when the mean is undefined, i.e. `NaN`); any other column with
a missing cell is filled with `mode()[0]` when the mode list is nonempty. -/
def imputeCol (c : Column) : Column :=
  if c.rep = Dtype.numeric then
    if hasMissing c.cells then
      match meanOpt c.cells with
      | some m => { c with cells := fillMissing c.cells (Val.vnum m) }
      | none => c
    else c
  else
    if hasMissing c.cells then
      match modeVal (presentVals c.cells) with
      | some m => { c with cells := fillMissing c.cells m }
      | none => c
    else c

/-- The imputation stage: both fill loops over all columns. -/
def imputeStage (t : Table) : Table := t.map imputeCol

/-- Whether a value is a number. -/
def isNumVal : Val → Bool
  | Val.vnum _ => true
  | _ => false

theorem imputeCol_rep (c : Column) : (imputeCol c).rep = c.rep := by
  unfold imputeCol
  repeat' split
  all_goals rfl

theorem imputeCol_name (c : Column) : (imputeCol c).name = c.name := by
  unfold imputeCol
  repeat' split
  all_goals rfl

theorem imputeCol_length (c : Column) : (imputeCol c).cells.length = c.cells.length := by
  unfold imputeCol
  repeat' split
  all_goals simp [fillMissing_length]

theorem imputeCol_numeric_fill {c : Column} (hrep : c.rep = Dtype.numeric)
    (hmiss : none ∈ c.cells) (hnv : numVals c.cells ≠ []) :
    imputeCol c = { c with cells := fillMissing c.cells (Val.vnum ((numVals c.cells).sum / (numVals c.cells).length)) } := by
  unfold imputeCol
  rw [if_pos hrep, if_pos (hasMissing_eq_true.2 hmiss), meanOpt_eq_some hnv]

theorem imputeCol_mode_fill {c : Column} {m : Val} (hrep : c.rep ≠ Dtype.numeric)
    (hmiss : none ∈ c.cells) (hm : modeVal (presentVals c.cells) = some m) :
    imputeCol c = { c with cells := fillMissing c.cells m } := by
  unfold imputeCol
  rw [if_neg hrep, if_pos (hasMissing_eq_true.2 hmiss), hm]

theorem imputeCol_of_not_missing {c : Column} (h : none ∉ c.cells) : imputeCol c = c := by
  have hf : hasMissing c.cells = false := hasMissing_eq_false.2 h
  simp [imputeCol, hf]

theorem imputeCol_numeric_noop {c : Column} (hrep : c.rep = Dtype.numeric)
    (hnv : numVals c.cells = []) : imputeCol c = c := by
  simp [imputeCol, hrep, meanOpt_eq_none hnv]

theorem imputeCol_cat_noop {c : Column} (hrep : c.rep ≠ Dtype.numeric)
    (hp : presentVals c.cells = []) : imputeCol c = c := by
  simp [imputeCol, hrep, modeVal_eq_none hp]

theorem numVals_nil_of_presentVals_nil {cells : List (Option Val)}
    (h : presentVals cells = []) : numVals cells = [] := by
  rw [List.eq_nil_iff_forall_not_mem]
  intro q hq
  have : Val.vnum q ∈ presentVals cells := mem_presentVals.2 (mem_numVals.1 hq)
  rw [h] at this
  simp at this

theorem numVals_ne_nil {cells : List (Option Val)}
    (hwf : ∀ v ∈ presentVals cells, isNumVal v = true)
    (hpres : presentVals cells ≠ []) : numVals cells ≠ [] := by
  obtain ⟨v, hv⟩ := List.exists_mem_of_ne_nil _ hpres
  have hn := hwf v hv
  cases v with
  | vnum q =>
    intro h0
    have : q ∈ numVals cells := mem_numVals.2 (mem_presentVals.1 hv)
    rw [h0] at this
    simp at this
  | vstr s => simp [isNumVal] at hn
  | vbool b => simp [isNumVal] at hn
  | vdate ts => simp [isNumVal] at hn

/-- C1: after the imputation stage of `clean_data`, a column that had at
least one non-missing value has zero missing cells, and a column whose
values were all missing is left unchanged (no fabricated value).  The
well-formedness hypothesis says a numeric-dtype column holds only numbers,
as a pandas int/float column does. -/
theorem claim_C1_imputation_totality (c : Column)
    (hwf : c.rep = Dtype.numeric → ∀ v ∈ presentVals c.cells, isNumVal v = true) :
    (presentVals c.cells ≠ [] → none ∉ (imputeCol c).cells) ∧
    (presentVals c.cells = [] → imputeCol c = c) := by
  constructor
  · intro hp
    by_cases hmiss : none ∈ c.cells
    · by_cases hrep : c.rep = Dtype.numeric
      · rw [imputeCol_numeric_fill hrep hmiss (numVals_ne_nil (hwf hrep) hp)]
        exact none_not_mem_fillMissing _ _
      · obtain ⟨m, hm⟩ := modeVal_isSome hp
        rw [imputeCol_mode_fill hrep hmiss hm]
        exact none_not_mem_fillMissing _ _
    · rw [imputeCol_of_not_missing hmiss]
      exact hmiss
  · intro hp
    by_cases hrep : c.rep = Dtype.numeric
    · exact imputeCol_numeric_noop hrep (numVals_nil_of_presentVals_nil hp)
    · exact imputeCol_cat_noop hrep hp

/-- Witness for C1 at concrete columns: a partially-missing textual column is
fully filled, and an entirely-missing numeric column is left unchanged. -/
theorem claim_C1_witness :
    (none ∉ (imputeCol ⟨"x", Dtype.textual, [some (Val.vstr "A"), none]⟩).cells) ∧
    imputeCol ⟨"y", Dtype.numeric, [none, none]⟩ = ⟨"y", Dtype.numeric, [none, none]⟩ := by
  constructor
  · exact (claim_C1_imputation_totality ⟨"x", Dtype.textual, [some (Val.vstr "A"), none]⟩
      (fun h => absurd h (by decide))).1 (by decide)
  · exact (claim_C1_imputation_totality ⟨"y", Dtype.numeric, [none, none]⟩
      (fun _ => by decide)).2 (by decide)

/-- C2: for a numeric-dtype column with at least one missing and one present
cell, imputation replaces every missing cell with the arithmetic mean of the
non-missing values and leaves the non-missing cells unchanged. -/
theorem claim_C2_mean_imputation (c : Column)
    (hrep : c.rep = Dtype.numeric)
    (hwf : ∀ v ∈ presentVals c.cells, isNumVal v = true)
    (hmiss : none ∈ c.cells)
    (hpres : presentVals c.cells ≠ []) :
    (∀ i : ℕ, ∀ x : Val, c.cells.getD i none = some x →
      (imputeCol c).cells.getD i none = some x) ∧
    (∀ i : ℕ, i < c.cells.length → c.cells.getD i none = none →
      (imputeCol c).cells.getD i none =
        some (Val.vnum ((numVals c.cells).sum / (numVals c.cells).length))) := by
  have hfill := imputeCol_numeric_fill hrep hmiss (numVals_ne_nil hwf hpres)
  constructor
  · intro i x hx
    rw [hfill]
    exact fillMissing_getD_some _ hx
  · intro i hi hx
    rw [hfill]
    exact fillMissing_getD_none _ hi hx

/-- Witness for C2: the numeric column `[1, missing, 3]` becomes `[1, 2, 3]`. -/
theorem claim_C2_witness :
    (imputeCol ⟨"n", Dtype.numeric, [some (Val.vnum 1), none, some (Val.vnum 3)]⟩).cells.getD 0 none
        = some (Val.vnum 1) ∧
    (imputeCol ⟨"n", Dtype.numeric, [some (Val.vnum 1), none, some (Val.vnum 3)]⟩).cells.getD 1 none
        = some (Val.vnum 2) ∧
    (imputeCol ⟨"n", Dtype.numeric, [some (Val.vnum 1), none, some (Val.vnum 3)]⟩).cells.getD 2 none
        = some (Val.vnum 3) := by
  have h := claim_C2_mean_imputation ⟨"n", Dtype.numeric, [some (Val.vnum 1), none, some (Val.vnum 3)]⟩
    rfl (by decide) (by simp) (by simp [presentVals])
  refine ⟨h.1 0 (Val.vnum 1) rfl, ?_, h.1 2 (Val.vnum 3) rfl⟩
  rw [h.2 1 (by simp) rfl]
  rw [show numVals [some (Val.vnum 1), none, some (Val.vnum 3)] = [(1 : ℚ), 3] from rfl]
  norm_num

/-- The tie-break the specification asserts: the first value, in order of
first appearance among the distinct values, whose multiplicity is maximal. -/
def specModeFirst (l : List Val) : Option Val :=
  (modeCands l).head?

/-- Counterexample to C3 as stated: in the column `[B, missing, A, A, B]` the
values "A" and "B" are tied for most frequent; the first distinct value
encountered is "B", but the code (whose `mode()` result is sorted) fills the
missing cell with "A". -/
theorem claim_C3_counterexample :
    specModeFirst (presentVals [some (Val.vstr "B"), none, some (Val.vstr "A"),
        some (Val.vstr "A"), some (Val.vstr "B")]) = some (Val.vstr "B") ∧
    (imputeCol ⟨"c", Dtype.textual, [some (Val.vstr "B"), none, some (Val.vstr "A"),
        some (Val.vstr "A"), some (Val.vstr "B")]⟩).cells.getD 1 none
      = some (Val.vstr "A") := by
  decide

/-- C3 (amended): for a non-numeric column with at least one missing and one
present cell, imputation replaces every missing cell with a mode of the
non-missing values — a present value of maximal multiplicity — and leaves
present cells unchanged; on a tie the chosen mode is the smallest tied value
under the sort order (pandas sorts the modes and the code takes index 0),
not the first-encountered one. -/
theorem claim_C3_mode_imputation (c : Column)
    (hrep : c.rep ≠ Dtype.numeric)
    (hmiss : none ∈ c.cells)
    (hpres : presentVals c.cells ≠ []) :
    ∃ m : Val, m ∈ presentVals c.cells ∧
      (∀ x ∈ presentVals c.cells,
        (presentVals c.cells).count x ≤ (presentVals c.cells).count m) ∧
      (∀ x ∈ presentVals c.cells,
        (presentVals c.cells).count x = (presentVals c.cells).count m →
          valLt x m = false) ∧
      (∀ i : ℕ, ∀ x : Val, c.cells.getD i none = some x →
        (imputeCol c).cells.getD i none = some x) ∧
      (∀ i : ℕ, i < c.cells.length → c.cells.getD i none = none →
        (imputeCol c).cells.getD i none = some m) := by
  obtain ⟨m, hm⟩ := modeVal_isSome hpres
  obtain ⟨hmem, hcount, hmin⟩ := modeVal_spec hm
  have hfill := imputeCol_mode_fill hrep hmiss hm
  refine ⟨m, hmem, ?_, ?_, ?_, ?_⟩
  · intro x hx
    rw [hcount]
    exact count_le_maxCount hx
  · intro x hx hcx
    exact hmin x hx (by rw [hcx, hcount])
  · intro i x hx
    rw [hfill]
    exact fillMissing_getD_some _ hx
  · intro i hi hx
    rw [hfill]
    exact fillMissing_getD_none _ hi hx

/-- Witness for C3 (amended): the non-numeric column `[A, missing, B, A]` has
unique mode "A", which fills the missing cell. -/
theorem claim_C3_witness :
    (imputeCol ⟨"c", Dtype.textual, [some (Val.vstr "A"), none, some (Val.vstr "B"),
        some (Val.vstr "A")]⟩).cells.getD 1 none = some (Val.vstr "A") := by
  obtain ⟨m, hmem, hle, _, _, hfill⟩ := claim_C3_mode_imputation
    ⟨"c", Dtype.textual, [some (Val.vstr "A"), none, some (Val.vstr "B"), some (Val.vstr "A")]⟩
    (by decide) (by decide) (by decide)
  have hmem' : m = Val.vstr "A" ∨ m = Val.vstr "B" := by
    have hl : m ∈ [Val.vstr "A", Val.vstr "B", Val.vstr "A"] := hmem
    simp at hl
    tauto
  have hm : m = Val.vstr "A" := by
    rcases hmem' with h | h
    · exact h
    · subst h
      have h2 := hle (Val.vstr "A") (by decide)
      exact absurd h2 (by decide)
  rw [hfill 1 (by decide) (by decide), hm]

/-- Numeric value of a list of decimal digit characters. -/
def natOfDigits (cs : List Char) : ℕ :=
  cs.foldl (fun a c => a * 10 + (c.toNat - 48)) 0

/-- Element-level number parsing as performed by `pd.to_numeric`: an optional
sign followed by a decimal integer or decimal fraction.  Returns the exact
rational value, or `none` when the string is not a number. -/
def parseNum (s : String) : Option ℚ :=
  let cs := s.toList
  let signed : ℤ × List Char :=
    match cs with
    | '-' :: rest => (-1, rest)
    | '+' :: rest => (1, rest)
    | _ => (1, cs)
  let sign := signed.1
  let body := signed.2
  let intPart := body.takeWhile fun c => c.isDigit
  let rest := body.dropWhile fun c => c.isDigit
  match rest with
  | [] =>
    if intPart.isEmpty then none
    else some (sign * (natOfDigits intPart : ℚ))
  | '.' :: fracPart =>
    if fracPart.all Char.isDigit ∧ ¬(intPart.isEmpty ∧ fracPart.isEmpty) then
      some (sign * ((natOfDigits intPart : ℚ) +
        (natOfDigits fracPart : ℚ) / (10 : ℚ) ^ fracPart.length))
    else none
  | _ => none

/-- Take exactly `k` decimal digits from the front of `cs`. -/
def takeDigits (k : ℕ) (cs : List Char) : Option (ℕ × List Char) :=
  let pre := cs.take k
  if pre.length = k ∧ pre.all Char.isDigit then some (natOfDigits pre, cs.drop k)
  else none

/-- Parsed timestamp: the date/time fields packed into one integer, plus
whether the string carried a timezone designator (offset or `Z`). -/
structure Stamp where
  ts : ℤ
  aware : Bool
deriving DecidableEq, Repr

/-- Element-level date parsing as performed by `pd.to_datetime` with format
inference: an ISO-like `YYYY[-MM[-DD]][THH:MM:SS][Z or +HH:MM or -HH:MM]`
shape, with field bounds checked.  Returns the timestamp and whether the
value is timezone-aware, or `none` when the string does not parse. -/
def parseDate (s : String) : Option Stamp := do
  let cs := s.toList
  let (y, r1) ← takeDigits 4 cs
  let (m, d, r2) ←
    match r1 with
    | '-' :: r =>
      match takeDigits 2 r with
      | some (m, r') =>
        match r' with
        | '-' :: r'' =>
          match takeDigits 2 r'' with
          | some (d, r3) => some (m, d, r3)
          | none => none
        | _ => some (m, 1, r')
      | none => none
    | _ => some (1, 1, r1)
  let (h, mi, se, r3) ←
    match r2 with
    | 'T' :: r =>
      match takeDigits 2 r with
      | some (h, ':' :: r') =>
        match takeDigits 2 r' with
        | some (mi, ':' :: r'') =>
          match takeDigits 2 r'' with
          | some (se, r4) => some (h, mi, se, r4)
          | none => none
        | _ => none
      | _ => none
    | _ => some (0, 0, 0, r2)
  let aware ←
    match r3 with
    | [] => some false
    | ['Z'] => some true
    | '+' :: r =>
      match takeDigits 2 r with
      | some (_, ':' :: r') =>
        match takeDigits 2 r' with
        | some (_, []) => some true
        | _ => none
      | _ => none
    | '-' :: r =>
      match takeDigits 2 r with
      | some (_, ':' :: r') =>
        match takeDigits 2 r' with
        | some (_, []) => some true
        | _ => none
      | _ => none
    | _ => none
  if 1 ≤ m ∧ m ≤ 12 ∧ 1 ≤ d ∧ d ≤ 31 ∧ h < 24 ∧ mi < 60 ∧ se < 60 then
    some ⟨(((y * 100 + m) * 100 + d) * 1000000 : ℤ) + (h * 10000 + mi * 100 + se),
          aware⟩
  else none

/-- Sequence a list of optional results: `some` of the list of values when
every element is `some`, otherwise `none` (all-or-nothing). -/
def seqOpt {α : Type} : List (Option α) → Option (List α)
  | [] => some []
  | none :: _ => none
  | some a :: l => (seqOpt l).map fun l' => a :: l'

/-- Numeric interpretation of one present cell under `pd.to_numeric`:
numbers pass through, strings are parsed, booleans become 0/1, timestamps
fail (raising, which `errors=ignore` turns into no conversion). -/
def parseValNum : Val → Option ℚ
  | Val.vnum q => some q
  | Val.vstr s => parseNum s
  | Val.vbool b => some (if b then 1 else 0)
  | Val.vdate _ => none

/-- The whole-column numeric attempt `pd.to_numeric(col, errors="ignore")`
followed by the dtype test of line 100: missing cells stay missing, and the
conversion succeeds (non-`object` result) exactly when every present cell
parses as a number. -/
def tryNumericCells (cells : List (Option Val)) : Option (List (Option Val)) :=
  seqOpt (cells.map fun c =>
    match c with
    | none => some none
    | some v => (parseValNum v).map fun q => some (Val.vnum q))

/-- Temporal interpretation of one present cell under `pd.to_datetime`: only
strings are parsed; any other present value makes the attempt fail. -/
def parseValDate : Val → Option Stamp
  | Val.vstr s => parseDate s
  | _ => none

/-- The whole-column temporal attempt `pd.to_datetime(col, errors="ignore",
infer_datetime_format=True)` followed by the dtype test of line 106: the
column converts exactly when every present cell parses as a date and none is
timezone-aware (a tz-aware result has `DatetimeTZDtype` and a mixed one is
left as `object`, both rejected by the test). -/
def tryTemporalCells (cells : List (Option Val)) : Option (List (Option Val)) :=
  (seqOpt (cells.map fun c =>
    match c with
    | none => some none
    | some v => (parseValDate v).map some)).bind fun parsed =>
    if parsed.all fun p =>
        match p with
        | none => true
        | some st => !st.aware then
      some (parsed.map (Option.map fun st => Val.vdate st.ts))
    else none

/-- Dtype coercion of one column, as the final loop of `clean_data` performs
it: only `object` (textual) columns are examined; the numeric attempt is
made first and, on success, commits and skips the temporal attempt
(`continue`); otherwise the temporal attempt may commit; otherwise the
column is left unchanged. -/
def coerceCol (c : Column) : Column :=
  if c.rep = Dtype.textual then
    match tryNumericCells c.cells with
    | some cs => { c with rep := Dtype.numeric, cells := cs }
    | none =>
      match tryTemporalCells c.cells with
      | some cs => { c with rep := Dtype.temporal, cells := cs }
      | none => c
  else c

/-- The coercion stage: the dtype-conversion loop over all columns. -/
def coerceStage (t : Table) : Table := t.map coerceCol

/-- Number of rows of a table: the length of its first column (uniform across
columns in a well-formed table). -/
def nRows : Table → ℕ
  | [] => 0
  | c :: _ => c.cells.length

/-- Row `i` of a table: the `i`-th cell of every column, in column order.
Missing-vs-missing compares equal because cells are `Option` values. -/
def rowAt (t : Table) (i : ℕ) : List (Option Val) :=
  t.map fun c => c.cells.getD i none

/-- The rows of a table, in order. -/
def rowsList (t : Table) : List (List (Option Val)) :=
  (List.range (nRows t)).map (rowAt t)

/-- Rebuild the columns of a table from a list of rows: column `k + j` of the
result takes the `(k + j)`-th entry of every row, keeping each original
column's name and dtype. -/
def rebuildCols (rs : List (List (Option Val))) : ℕ → Table → Table
  | _, [] => []
  | k, c :: t => { c with cells := rs.map fun r => r.getD k none } :: rebuildCols rs (k + 1) t

/-- The duplicate-removal stage `df.drop_duplicates().reset_index(drop=True)`:
keep the first occurrence of each distinct row (missing-vs-missing equal),
drop later duplicates, and renumber rows contiguously from zero (positional
lists have no other numbering). -/
def dedupStage (t : Table) : Table :=
  rebuildCols (dedupFirst (rowsList t)) 0 t

theorem map_getD_range {α : Type} (l : List α) (d : α) :
    (List.range l.length).map (fun i => l.getD i d) = l := by
  apply List.ext_getElem
  · simp
  · intro i h1 h2
    simp [List.getD, List.getElem?_eq_getElem, h2]

theorem rowAt_length (t : Table) (i : ℕ) : (rowAt t i).length = t.length := by
  simp [rowAt]

theorem length_of_mem_rowsList {t : Table} {r : List (Option Val)}
    (h : r ∈ rowsList t) : r.length = t.length := by
  obtain ⟨i, _, rfl⟩ := List.mem_map.1 h
  exact rowAt_length t i

theorem rowAt_getD {t : Table} {k : ℕ} (hk : k < t.length) (i : ℕ) :
    (rowAt t i).getD k none = (t.get ⟨k, hk⟩).cells.getD i none := by
  unfold rowAt
  rw [List.getD_eq_getElem _ _ (by simpa using hk)]
  simp

theorem rowsList_proj {t : Table} {k : ℕ} (hk : k < t.length)
    (hlen : (t.get ⟨k, hk⟩).cells.length = nRows t) :
    (rowsList t).map (fun r => r.getD k none) = (t.get ⟨k, hk⟩).cells := by
  unfold rowsList
  rw [List.map_map]
  show (List.range (nRows t)).map (fun i => (rowAt t i).getD k none) = _
  rw [List.map_congr_left (fun i _ => rowAt_getD hk i), ← hlen]
  exact map_getD_range _ _

theorem rebuildCols_length (rs : List (List (Option Val))) :
    ∀ (k : ℕ) (t : Table), (rebuildCols rs k t).length = t.length
  | _, [] => rfl
  | k, c :: t => by
    simp [rebuildCols, rebuildCols_length rs (k + 1) t]

theorem rebuildCols_get (rs : List (List (Option Val))) :
    ∀ (k : ℕ) (t : Table) (j : ℕ) (hj : j < t.length),
    (rebuildCols rs k t).get ⟨j, by rw [rebuildCols_length]; exact hj⟩ =
      { t.get ⟨j, hj⟩ with cells := rs.map fun r => r.getD (k + j) none }
  | k, [], j, hj => absurd hj (by simp)
  | k, c :: t, 0, hj => rfl
  | k, c :: t, j + 1, hj => by
    have hstep := rebuildCols_get rs (k + 1) t j (by simpa using hj)
    have harith : k + 1 + j = k + (j + 1) := by omega
    rw [harith] at hstep
    exact hstep

theorem rebuildCols_map_name (rs : List (List (Option Val))) :
    ∀ (k : ℕ) (t : Table),
      (rebuildCols rs k t).map Column.name = t.map Column.name
  | _, [] => rfl
  | k, c :: t => by
    simp [rebuildCols, rebuildCols_map_name rs (k + 1) t]

theorem rebuildCols_map_rep (rs : List (List (Option Val))) :
    ∀ (k : ℕ) (t : Table),
      (rebuildCols rs k t).map Column.rep = t.map Column.rep
  | _, [] => rfl
  | k, c :: t => by
    simp [rebuildCols, rebuildCols_map_rep rs (k + 1) t]

theorem nRows_dedupStage (t : Table) :
    nRows (dedupStage t) = (dedupFirst (rowsList t)).length := by
  cases t with
  | nil =>
    have h0 : rowsList ([] : Table) = [] := by simp [rowsList, nRows]
    simp [dedupStage, rebuildCols, nRows, h0, dedupFirst_nil]
  | cons c t =>
    simp [dedupStage, rebuildCols, nRows]

theorem rowAt_dedupStage {t : Table} {i : ℕ}
    (hi : i < (dedupFirst (rowsList t)).length) :
    rowAt (dedupStage t) i = (dedupFirst (rowsList t)).get ⟨i, hi⟩ := by
  have hmem : (dedupFirst (rowsList t)).get ⟨i, hi⟩ ∈ rowsList t := by
    rw [← mem_dedupFirst]
    exact List.get_mem _ _ _
  have hrowlen : ((dedupFirst (rowsList t)).get ⟨i, hi⟩).length = t.length :=
    length_of_mem_rowsList hmem
  apply List.ext_getElem
  · rw [rowAt_length, dedupStage, rebuildCols_length, hrowlen]
  · intro k h1 h2
    have hkt : k < t.length := by
      rw [rowAt_length, dedupStage, rebuildCols_length] at h1
      exact h1
    have hget : (dedupStage t).get ⟨k, by rw [dedupStage, rebuildCols_length]; exact hkt⟩ =
        { t.get ⟨k, hkt⟩ with
          cells := (dedupFirst (rowsList t)).map fun r => r.getD (0 + k) none } :=
      rebuildCols_get _ 0 t k hkt
    have h0k : 0 + k = k := by omega
    rw [h0k] at hget
    calc (rowAt (dedupStage t) i)[k]
        = ((dedupStage t).get ⟨k, by rw [dedupStage, rebuildCols_length]; exact hkt⟩).cells.getD i none := by
          simp [rowAt, List.getElem_map, List.get_eq_getElem]
      _ = ((dedupFirst (rowsList t)).map fun r => r.getD k none).getD i none := by rw [hget]
      _ = ((dedupFirst (rowsList t)).get ⟨i, hi⟩).getD k none := by
          rw [List.getD_eq_getElem _ _ (by simpa using hi)]
          simp [List.get_eq_getElem]
      _ = ((dedupFirst (rowsList t)).get ⟨i, hi⟩)[k] := by
          rw [List.getD_eq_getElem]

theorem rowsList_dedupStage (t : Table) :
    rowsList (dedupStage t) = dedupFirst (rowsList t) := by
  rw [rowsList, nRows_dedupStage]
  apply List.ext_getElem
  · simp
  · intro i h1 h2
    simp only [List.getElem_map, List.getElem_range]
    rw [rowAt_dedupStage h2]
    simp [List.get_eq_getElem]

/-- All columns have the common row count. -/
def UniformLen (t : Table) : Prop :=
  ∀ c ∈ t, c.cells.length = nRows t

instance : DecidablePred UniformLen := fun t =>
  decidable_of_iff (∀ c ∈ t, c.cells.length = nRows t) Iff.rfl

/-- State of `clean_data`: the caller's dataframe `df` and the private working
copy `df_clean` produced by `df.copy()` (line 73). -/
structure CleanSt where
  df : Table
  df_clean : Table
deriving DecidableEq, Repr

/-- Line 73, `df_clean = df.copy()`: the working copy starts as an
independent copy of the input. -/
def cleanInit (df : Table) : CleanSt := ⟨df, df⟩

/-- Lines 76-89: the two imputation loops write only to `df_clean`. -/
def cleanImpute (s : CleanSt) : CleanSt := { s with df_clean := imputeStage s.df_clean }

/-- Line 92: duplicate removal rebinds only `df_clean`. -/
def cleanDedup (s : CleanSt) : CleanSt := { s with df_clean := dedupStage s.df_clean }

/-- Lines 95-107: the dtype-conversion loop writes only to `df_clean`. -/
def cleanCoerce (s : CleanSt) : CleanSt := { s with df_clean := coerceStage s.df_clean }

/-- The full body of `clean_data`, stage by stage over the explicit state. -/
def runCleanData (df : Table) : CleanSt :=
  cleanCoerce (cleanDedup (cleanImpute (cleanInit df)))

/-- `clean_data(df)`: impute, deduplicate, coerce; returns `df_clean`. -/
def cleanData (df : Table) : Table :=
  (runCleanData df).df_clean

theorem cleanData_eq (df : Table) :
    cleanData df = coerceStage (dedupStage (imputeStage df)) := rfl

/-- C4: the duplicate-removal stage keeps exactly the first occurrence of
each distinct row (missing-vs-missing comparing equal, since rows are lists
of `Option` cells) and drops later duplicates; the kept rows form a stable
subsequence with no duplicate left, every input row still occurs, and
column names and dtypes are untouched.  Result rows are positions `0, 1, …`
of the output list, i.e. re-indexed contiguously from zero. -/
theorem claim_C4_dedup_first_occurrence (t : Table) :
    rowsList (dedupStage t) = dedupFirst (rowsList t) ∧
    (rowsList (dedupStage t)).Sublist (rowsList t) ∧
    (rowsList (dedupStage t)).Nodup ∧
    (∀ r, r ∈ rowsList t ↔ r ∈ rowsList (dedupStage t)) ∧
    (dedupStage t).map Column.name = t.map Column.name ∧
    (dedupStage t).map Column.rep = t.map Column.rep := by
  rw [rowsList_dedupStage]
  exact ⟨rfl, dedupFirst_sublist _, dedupFirst_nodup _,
    fun r => (mem_dedupFirst (x := r)).symm,
    rebuildCols_map_name _ 0 t, rebuildCols_map_rep _ 0 t⟩

theorem coerceCol_name (c : Column) : (coerceCol c).name = c.name := by
  unfold coerceCol
  repeat' split
  all_goals rfl

theorem seqOpt_length {α : Type} :
    ∀ {l : List (Option α)} {l' : List α}, seqOpt l = some l' → l'.length = l.length
  | [], _, h => by
    simp only [seqOpt, Option.some.injEq] at h
    simp [← h]
  | none :: _, _, h => by simp [seqOpt] at h
  | some a :: l, l', h => by
    simp only [seqOpt, Option.map_eq_some'] at h
    obtain ⟨l'', hl'', rfl⟩ := h
    simp [seqOpt_length hl'']

theorem seqOpt_forall₂ {α : Type} :
    ∀ {l : List (Option α)} {l' : List α}, seqOpt l = some l' →
      List.Forall₂ (fun a b => a = some b) l l'
  | [], _, h => by
    simp only [seqOpt, Option.some.injEq] at h
    simp [← h]
  | none :: _, _, h => by simp [seqOpt] at h
  | some a :: l, l', h => by
    simp only [seqOpt, Option.map_eq_some'] at h
    obtain ⟨l'', hl'', rfl⟩ := h
    exact List.Forall₂.cons rfl (seqOpt_forall₂ hl'')

/-- The numeric attempt relates input and output cells pointwise: missing
stays missing, and a present cell's value parses to the present output
number. -/
theorem tryNumericCells_forall₂ {cells cs : List (Option Val)}
    (h : tryNumericCells cells = some cs) :
    List.Forall₂ (fun a b => (a = none ∧ b = none) ∨
      ∃ v q, a = some v ∧ parseValNum v = some q ∧ b = some (Val.vnum q)) cells cs := by
  unfold tryNumericCells at h
  have h2 := seqOpt_forall₂ h
  rw [List.forall₂_map_left_iff] at h2
  refine h2.imp ?_
  intro a b hab
  cases a with
  | none =>
    simp only [Option.some.injEq] at hab
    exact Or.inl ⟨rfl, hab.symm⟩
  | some v =>
    simp only [Option.map_eq_some'] at hab
    obtain ⟨q, hq, rfl⟩ := hab
    exact Or.inr ⟨v, q, rfl, hq, rfl⟩

/-- When every present cell parses as a number the whole-column attempt
succeeds. -/
theorem tryNumericCells_total : ∀ {cells : List (Option Val)},
    (∀ v ∈ presentVals cells, parseValNum v ≠ none) →
      ∃ cs, tryNumericCells cells = some cs
  | [], _ => ⟨[], rfl⟩
  | none :: cells, hall => by
    have hall' : ∀ v ∈ presentVals cells, parseValNum v ≠ none := by
      intro v hv
      exact hall v (mem_presentVals.2 (List.mem_cons_of_mem _ (mem_presentVals.1 hv)))
    obtain ⟨cs, hcs⟩ := tryNumericCells_total hall'
    refine ⟨none :: cs, ?_⟩
    unfold tryNumericCells at hcs ⊢
    simp [seqOpt, hcs]
  | some v :: cells, hall => by
    have hall' : ∀ x ∈ presentVals cells, parseValNum x ≠ none := by
      intro x hx
      exact hall x (mem_presentVals.2 (List.mem_cons_of_mem _ (mem_presentVals.1 hx)))
    obtain ⟨cs, hcs⟩ := tryNumericCells_total hall'
    have hv : parseValNum v ≠ none :=
      hall v (mem_presentVals.2 (List.mem_cons_self _ _))
    obtain ⟨q, hq⟩ := Option.ne_none_iff_exists'.1 hv
    refine ⟨some (Val.vnum q) :: cs, ?_⟩
    unfold tryNumericCells at hcs ⊢
    simp [seqOpt, hq, hcs]

/-- When some present cell fails to parse as a number the whole-column
attempt fails. -/
theorem tryNumericCells_eq_none {cells : List (Option Val)}
    (hfail : ∃ v ∈ presentVals cells, parseValNum v = none) :
    tryNumericCells cells = none := by
  obtain ⟨v, hv, hvfail⟩ := hfail
  obtain ⟨i, hi, hvi⟩ := List.mem_iff_getElem.1 (mem_presentVals.1 hv)
  cases hres : tryNumericCells cells with
  | none => rfl
  | some cs =>
    exfalso
    have h2 := tryNumericCells_forall₂ hres
    have h3 := List.forall₂_iff_get.1 h2
    have hlen := h3.1
    have h4 := h3.2 i hi (by omega)
    rcases h4 with ⟨h5, _⟩ | ⟨v', q, hv', hq, _⟩
    · rw [List.get_eq_getElem, hvi] at h5
      cases h5
    · rw [List.get_eq_getElem, hvi] at hv'
      rw [Option.some.injEq] at hv'
      rw [← hv', hvfail] at hq
      cases hq

/-- C5: numeric coercion of a textual column is all-or-nothing.  If every
present cell parses as a number, the numeric attempt succeeds, the column's
dtype becomes numeric, present cells carry the parsed values and missing
cells stay missing; if some present cell fails to parse, the numeric
attempt returns nothing and by itself leaves the column's cells and textual
dtype unchanged. -/
theorem claim_C5_numeric_all_or_nothing (c : Column) (hrep : c.rep = Dtype.textual) :
    ((∀ v ∈ presentVals c.cells, parseValNum v ≠ none) →
      ∃ cs, tryNumericCells c.cells = some cs ∧
        coerceCol c = { c with rep := Dtype.numeric, cells := cs } ∧
        cs.length = c.cells.length ∧
        List.Forall₂ (fun a b => (a = none ∧ b = none) ∨
          ∃ v q, a = some v ∧ parseValNum v = some q ∧ b = some (Val.vnum q)) c.cells cs) ∧
    ((∃ v ∈ presentVals c.cells, parseValNum v = none) →
      tryNumericCells c.cells = none) := by
  constructor
  · intro hall
    obtain ⟨cs, hcs⟩ := tryNumericCells_total hall
    refine ⟨cs, hcs, ?_, ?_, tryNumericCells_forall₂ hcs⟩
    · unfold coerceCol
      rw [if_pos hrep, hcs]
    · have := seqOpt_length (by unfold tryNumericCells at hcs; exact hcs)
      simpa using this
  · exact tryNumericCells_eq_none

/-- Witness for C5: `["1","2","3"]` coerces to a numeric column, while
`["1","2","abc"]` fails the numeric attempt. -/
theorem claim_C5_witness :
    (∃ cs, tryNumericCells [some (Val.vstr "1"), some (Val.vstr "2"), some (Val.vstr "3")]
        = some cs ∧
      coerceCol ⟨"a", Dtype.textual, [some (Val.vstr "1"), some (Val.vstr "2"), some (Val.vstr "3")]⟩
        = { name := "a", rep := Dtype.numeric, cells := cs }) ∧
    tryNumericCells [some (Val.vstr "1"), some (Val.vstr "2"), some (Val.vstr "abc")] = none := by
  constructor
  · obtain ⟨cs, h1, h2, _, _⟩ :=
      (claim_C5_numeric_all_or_nothing
        ⟨"a", Dtype.textual, [some (Val.vstr "1"), some (Val.vstr "2"), some (Val.vstr "3")]⟩
        rfl).1 (by decide)
    exact ⟨cs, h1, h2⟩
  · exact (claim_C5_numeric_all_or_nothing
      ⟨"a", Dtype.textual, [some (Val.vstr "1"), some (Val.vstr "2"), some (Val.vstr "abc")]⟩
      rfl).2 ⟨Val.vstr "abc", by decide, by decide⟩

/-- C6: the numeric attempt comes first, and its success commits the column
to a numeric dtype (the loop's `continue` skips the temporal attempt), even
if every present cell would also parse as a date. -/
theorem claim_C6_numeric_precedence (c : Column) (hrep : c.rep = Dtype.textual)
    {cs : List (Option Val)} (hnum : tryNumericCells c.cells = some cs) :
    coerceCol c = { c with rep := Dtype.numeric, cells := cs } ∧
    (coerceCol c).rep ≠ Dtype.temporal := by
  have hcoe : coerceCol c = { c with rep := Dtype.numeric, cells := cs } := by
    unfold coerceCol
    rw [if_pos hrep, hnum]
  refine ⟨hcoe, ?_⟩
  rw [hcoe]
  simp

/-- Witness for C6: every cell of `["2020","2021","2022"]` parses as a
year-only date, yet the column coerces to numeric, not temporal. -/
theorem claim_C6_witness :
    (∀ v ∈ presentVals [some (Val.vstr "2020"), some (Val.vstr "2021"), some (Val.vstr "2022")],
      parseValDate v ≠ none) ∧
    (coerceCol ⟨"y", Dtype.textual,
      [some (Val.vstr "2020"), some (Val.vstr "2021"), some (Val.vstr "2022")]⟩).rep
        = Dtype.numeric ∧
    (coerceCol ⟨"y", Dtype.textual,
      [some (Val.vstr "2020"), some (Val.vstr "2021"), some (Val.vstr "2022")]⟩).rep
        ≠ Dtype.temporal := by
  obtain ⟨cs, hcs⟩ := Option.ne_none_iff_exists'.1
    (show tryNumericCells [some (Val.vstr "2020"), some (Val.vstr "2021"),
      some (Val.vstr "2022")] ≠ none by decide)
  refine ⟨by decide, ?_, (claim_C6_numeric_precedence _ rfl hcs).2⟩
  rw [(claim_C6_numeric_precedence _ rfl hcs).1]

/-- A timezone-aware present cell makes the whole-column temporal attempt
fail: when everything parses, a tz-aware parse gives the column the
`DatetimeTZDtype` the dtype test of line 106 rejects. -/
theorem tryTemporalCells_none_of_aware {cells : List (Option Val)} {v : Val} {st : Stamp}
    (hv : some v ∈ cells) (hparse : parseValDate v = some st) (haware : st.aware = true) :
    tryTemporalCells cells = none := by
  unfold tryTemporalCells
  cases hseq : seqOpt (cells.map fun c =>
      match c with
      | none => some none
      | some v => (parseValDate v).map some) with
  | none => rfl
  | some parsed =>
    rw [Option.some_bind, if_neg]
    intro hall
    have h2 := seqOpt_forall₂ hseq
    rw [List.forall₂_map_left_iff] at h2
    obtain ⟨i, hi, hvi⟩ := List.mem_iff_getElem.1 hv
    have h3 := List.forall₂_iff_get.1 h2
    have hlen := h3.1
    have h4 := h3.2 i hi (by omega)
    rw [List.get_eq_getElem, List.get_eq_getElem, hvi] at h4
    simp only [hparse, Option.map_some'] at h4
    have hmem : parsed[i] ∈ parsed := List.getElem_mem _
    have h5 := List.all_eq_true.1 hall _ hmem
    have h6 : parsed[i] = some st := by
      injection h4 with h7
      exact h7.symm
    rw [h6] at h5
    simp [haware] at h5

/-- C10: a textual column whose present cells all fail numeric parsing but
all parse as timezone-aware date/time values is not converted: the coercion
loop leaves the column's dtype and cells untouched. -/
theorem claim_C10_tz_aware_rejected (c : Column) (hrep : c.rep = Dtype.textual)
    (hnum : ∃ v ∈ presentVals c.cells, parseValNum v = none)
    (hdate : ∀ v ∈ presentVals c.cells, ∃ st, parseValDate v = some st ∧ st.aware = true) :
    coerceCol c = c := by
  obtain ⟨v0, hv0, hfail⟩ := hnum
  obtain ⟨st, hst, haware⟩ := hdate v0 hv0
  have hn : tryNumericCells c.cells = none := tryNumericCells_eq_none ⟨v0, hv0, hfail⟩
  have ht : tryTemporalCells c.cells = none :=
    tryTemporalCells_none_of_aware (mem_presentVals.1 hv0) hst haware
  unfold coerceCol
  rw [if_pos hrep, hn, ht]

/-- Witness for C10: a column holding one timezone-aware timestamp string
keeps its textual dtype and cells. -/
theorem claim_C10_witness :
    coerceCol ⟨"d", Dtype.textual, [some (Val.vstr "2020-01-02T03:04:05+05:00")]⟩
      = ⟨"d", Dtype.textual, [some (Val.vstr "2020-01-02T03:04:05+05:00")]⟩ := by
  apply claim_C10_tz_aware_rejected _ rfl
  · exact ⟨Val.vstr "2020-01-02T03:04:05+05:00", by decide, by decide⟩
  · intro v hv
    have hv' : v = Val.vstr "2020-01-02T03:04:05+05:00" := by
      simpa [presentVals] using hv
    subst hv'
    have hmap : (parseValDate (Val.vstr "2020-01-02T03:04:05+05:00")).map Stamp.aware
        = some true := by decide
    obtain ⟨st, hst⟩ := Option.ne_none_iff_exists'.1
      (show parseValDate (Val.vstr "2020-01-02T03:04:05+05:00") ≠ none by decide)
    refine ⟨st, hst, ?_⟩
    rw [hst] at hmap
    simpa using hmap

/-- C8: `clean_data` works on the private copy `df_clean` made at line 73;
every stage rebinds only `df_clean`, so after the call the caller's table
is exactly the input and the returned table is the staged result built from
the copy. -/
theorem claim_C8_input_read_only (df : Table) :
    (runCleanData df).df = df ∧ (runCleanData df).df_clean = cleanData df :=
  ⟨rfl, rfl⟩

theorem rebuildCols_nil_of_empty :
    ∀ (k : ℕ) (t : Table), (∀ c ∈ t, c.cells = []) → rebuildCols [] k t = t
  | _, [], _ => rfl
  | k, c :: t, h => by
    have hc : c.cells = [] := h c (by simp)
    have ht := rebuildCols_nil_of_empty (k + 1) t (fun c hc => h c (by simp [hc]))
    cases c
    simp_all [rebuildCols]

/-- Counterexample to C9 as stated: on the empty table with one textual,
zero-row column, the coercion stage is not a no-op — `pd.to_numeric`
vacuously succeeds on an empty object column and retags it as numeric — so
`clean_data` does not return a table equal to its empty input. -/
theorem claim_C9_counterexample :
    cleanData [⟨"a", Dtype.textual, []⟩] ≠ [⟨"a", Dtype.textual, []⟩] ∧
    coerceStage [⟨"a", Dtype.textual, []⟩] ≠ [⟨"a", Dtype.textual, []⟩] := by
  decide

/-- C9 (amended): on an empty table (zero rows and/or zero columns) the
imputation and duplicate-removal stages are no-ops and no error is raised;
the result has the same column names and is still empty.  The coercion
stage, however, still runs: it retags an empty textual column as numeric
(there are no cell values to change), so `clean_data` on an empty table is
exactly the coercion stage. -/
theorem claim_C9_empty_table (t : Table) (h : ∀ c ∈ t, c.cells = []) :
    imputeStage t = t ∧ dedupStage t = t ∧ cleanData t = coerceStage t ∧
    (cleanData t).map Column.name = t.map Column.name ∧
    (∀ c ∈ cleanData t, c.cells = []) := by
  have himp : imputeStage t = t := by
    unfold imputeStage
    rw [List.map_congr_left (g := id) fun c hc => ?_]
    · exact List.map_id t
    · have hc' : c.cells = [] := h c hc
      rw [imputeCol_of_not_missing (by rw [hc']; exact List.not_mem_nil _)]
      rfl
  have hnr : nRows t = 0 := by
    cases t with
    | nil => rfl
    | cons c t => simp [nRows, h c (by simp)]
  have hrows : rowsList t = [] := by
    simp [rowsList, hnr]
  have hded : dedupStage t = t := by
    unfold dedupStage
    rw [hrows]
    exact rebuildCols_nil_of_empty 0 t h
  have hclean : cleanData t = coerceStage t := by
    rw [cleanData_eq, himp, hded]
  have hcells : ∀ c ∈ cleanData t, c.cells = [] := by
    rw [hclean]
    intro c' hc'
    obtain ⟨c, hc, rfl⟩ := List.mem_map.1 hc'
    have hc0 : c.cells = [] := h c hc
    unfold coerceCol
    by_cases hrep : c.rep = Dtype.textual
    · rw [if_pos hrep, hc0]
      rfl
    · rw [if_neg hrep]
      exact hc0
  refine ⟨himp, hded, hclean, ?_, hcells⟩
  rw [hclean]
  unfold coerceStage
  rw [List.map_map]
  exact List.map_congr_left fun c _ => coerceCol_name c

/-- Witness for C9 (amended) at the one-column, zero-row table. -/
theorem claim_C9_witness :
    imputeStage [⟨"a", Dtype.textual, []⟩] = [⟨"a", Dtype.textual, []⟩] ∧
    dedupStage [⟨"a", Dtype.textual, []⟩] = [⟨"a", Dtype.textual, []⟩] ∧
    cleanData [⟨"a", Dtype.textual, []⟩] = coerceStage [⟨"a", Dtype.textual, []⟩] := by
  obtain ⟨h1, h2, h3, _, _⟩ := claim_C9_empty_table [⟨"a", Dtype.textual, []⟩] (by decide)
  exact ⟨h1, h2, h3⟩

theorem presentVals_eq_nil_iff {cells : List (Option Val)} :
    presentVals cells = [] ↔ ∀ x ∈ cells, x = none := by
  simp [presentVals, List.filterMap_eq_nil_iff]

theorem numVals_eq_nil_iff {cells : List (Option Val)} :
    numVals cells = [] ↔ ∀ q : ℚ, some (Val.vnum q) ∉ cells := by
  constructor
  · intro h q hq
    have hmem : q ∈ numVals cells := mem_numVals.2 hq
    rw [h] at hmem
    simp at hmem
  · intro h
    rw [List.eq_nil_iff_forall_not_mem]
    intro q hq
    exact h q (mem_numVals.1 hq)

theorem numVals_eq_nil_of_subset {cells₁ cells₂ : List (Option Val)}
    (hsub : ∀ x ∈ cells₂, x ∈ cells₁) (h : numVals cells₁ = []) : numVals cells₂ = [] :=
  numVals_eq_nil_iff.2 fun q hq => numVals_eq_nil_iff.1 h q (hsub _ hq)

theorem numVals_eq_nil_of_allNone {cells : List (Option Val)}
    (h : ∀ x ∈ cells, x = none) : numVals cells = [] :=
  numVals_eq_nil_iff.2 fun _ hq => by cases h _ hq

/-- After imputation a numeric-dtype column either has no missing cell left
or was returned unchanged because it had no numeric value to average. -/
theorem imputeCol_analysis_numeric {c : Column} (hrep : c.rep = Dtype.numeric) :
    none ∉ (imputeCol c).cells ∨ (imputeCol c = c ∧ numVals c.cells = []) := by
  by_cases hmiss : none ∈ c.cells
  · by_cases hnv : numVals c.cells = []
    · exact Or.inr ⟨imputeCol_numeric_noop hrep hnv, hnv⟩
    · rw [imputeCol_numeric_fill hrep hmiss hnv]
      exact Or.inl (none_not_mem_fillMissing _ _)
  · rw [imputeCol_of_not_missing hmiss]
    exact Or.inl hmiss

/-- After imputation a non-numeric column either has no missing cell left or
was returned unchanged because it was entirely missing. -/
theorem imputeCol_analysis_cat {c : Column} (hrep : c.rep ≠ Dtype.numeric) :
    none ∉ (imputeCol c).cells ∨ (imputeCol c = c ∧ ∀ x ∈ c.cells, x = none) := by
  by_cases hmiss : none ∈ c.cells
  · by_cases hp : presentVals c.cells = []
    · exact Or.inr ⟨imputeCol_cat_noop hrep hp, presentVals_eq_nil_iff.1 hp⟩
    · obtain ⟨m, hm⟩ := modeVal_isSome hp
      rw [imputeCol_mode_fill hrep hmiss hm]
      exact Or.inl (none_not_mem_fillMissing _ _)
  · rw [imputeCol_of_not_missing hmiss]
    exact Or.inl hmiss

theorem tryNumericCells_length {cells cs : List (Option Val)}
    (h : tryNumericCells cells = some cs) : cs.length = cells.length := by
  unfold tryNumericCells at h
  have hlen := seqOpt_length h
  simpa using hlen

theorem tryTemporalCells_forall₂ {cells cs : List (Option Val)}
    (h : tryTemporalCells cells = some cs) :
    List.Forall₂ (fun a b => (a = none ∧ b = none) ∨
      ∃ v st, a = some v ∧ parseValDate v = some st ∧ b = some (Val.vdate st.ts)) cells cs := by
  unfold tryTemporalCells at h
  cases hseq : seqOpt (cells.map fun c =>
      match c with
      | none => some none
      | some v => (parseValDate v).map some) with
  | none =>
    rw [hseq] at h
    cases h
  | some parsed =>
    rw [hseq, Option.some_bind] at h
    by_cases hall : (parsed.all fun p =>
        match p with
        | none => true
        | some st => !st.aware) = true
    · rw [if_pos hall] at h
      injection h with h'
      subst h'
      have h2 := seqOpt_forall₂ hseq
      rw [List.forall₂_map_left_iff] at h2
      rw [List.forall₂_map_right_iff]
      refine h2.imp ?_
      intro a b hab
      cases a with
      | none =>
        simp only [Option.some.injEq] at hab
        rw [← hab]
        exact Or.inl ⟨rfl, rfl⟩
      | some v =>
        simp only [Option.map_eq_some'] at hab
        obtain ⟨st, hst, hb⟩ := hab
        rw [← hb]
        exact Or.inr ⟨v, st, rfl, hst, rfl⟩
    · rw [if_neg hall] at h
      cases h

theorem tryTemporalCells_length {cells cs : List (Option Val)}
    (h : tryTemporalCells cells = some cs) : cs.length = cells.length :=
  (tryTemporalCells_forall₂ h).length_eq.symm

/-- A pointwise relation that ties missingness of input and output cells
transfers the no-missing and the all-missing property forward. -/
theorem forall₂_none_preserve {R : Option Val → Option Val → Prop}
    {cells cs : List (Option Val)} (h : List.Forall₂ R cells cs)
    (himp : ∀ a b, R a b → (a = none ↔ b = none)) :
    (none ∉ cells → none ∉ cs) ∧
    ((∀ x ∈ cells, x = none) → ∀ x ∈ cs, x = none) := by
  have h3 := List.forall₂_iff_get.1 h
  have hlen := h3.1
  constructor
  · intro hna hnb
    obtain ⟨j, hj, hbj⟩ := List.mem_iff_getElem.1 hnb
    have hrel := h3.2 j (by omega) hj
    have haj : cells.get ⟨j, by omega⟩ = none := by
      rw [(himp _ _ hrel).2]
      rw [List.get_eq_getElem]
      exact hbj
    apply hna
    rw [← haj]
    exact List.get_mem _ _ _
  · intro hall x hx
    obtain ⟨j, hj, rfl⟩ := List.mem_iff_getElem.1 hx
    have hrel := h3.2 j (by omega) hj
    have haj : cells.get ⟨j, by omega⟩ = none := hall _ (List.get_mem _ _ _)
    have hbj := (himp _ _ hrel).1 haj
    rw [List.get_eq_getElem] at hbj
    exact hbj

/-- The three possible outcomes of the coercion loop body on one column. -/
theorem coerceCol_cases (c : Column) :
    coerceCol c = c ∨
    (c.rep = Dtype.textual ∧ ∃ cs, tryNumericCells c.cells = some cs ∧
      coerceCol c = { c with rep := Dtype.numeric, cells := cs }) ∨
    (c.rep = Dtype.textual ∧ ∃ cs, tryTemporalCells c.cells = some cs ∧
      coerceCol c = { c with rep := Dtype.temporal, cells := cs }) := by
  by_cases hrep : c.rep = Dtype.textual
  · cases hn : tryNumericCells c.cells with
    | some cs =>
      refine Or.inr (Or.inl ⟨hrep, cs, rfl, ?_⟩)
      unfold coerceCol
      rw [if_pos hrep, hn]
    | none =>
      cases ht : tryTemporalCells c.cells with
      | some cs =>
        refine Or.inr (Or.inr ⟨hrep, cs, rfl, ?_⟩)
        unfold coerceCol
        rw [if_pos hrep, hn, ht]
      | none =>
        refine Or.inl ?_
        unfold coerceCol
        rw [if_pos hrep, hn, ht]
  · refine Or.inl ?_
    unfold coerceCol
    rw [if_neg hrep]

/-- The coercion loop body is idempotent on a column. -/
theorem coerceCol_idem (c : Column) : coerceCol (coerceCol c) = coerceCol c := by
  rcases coerceCol_cases c with h | ⟨_, cs, _, h⟩ | ⟨_, cs, _, h⟩
  · rw [h]
    exact h
  · rw [h]
    unfold coerceCol
    rw [if_neg (by simp)]
  · rw [h]
    unfold coerceCol
    rw [if_neg (by simp)]

theorem coerceCol_length (c : Column) : (coerceCol c).cells.length = c.cells.length := by
  rcases coerceCol_cases c with h | ⟨_, cs, hn, h⟩ | ⟨_, cs, ht, h⟩
  · rw [h]
  · rw [h]
    exact tryNumericCells_length hn
  · rw [h]
    exact tryTemporalCells_length ht

theorem nRows_imputeStage (t : Table) : nRows (imputeStage t) = nRows t := by
  cases t with
  | nil => rfl
  | cons c t => simp [imputeStage, nRows, imputeCol_length]

theorem uniformLen_imputeStage {t : Table} (hU : UniformLen t) :
    UniformLen (imputeStage t) := by
  intro c' hc'
  obtain ⟨c, hc, rfl⟩ := List.mem_map.1 hc'
  rw [imputeCol_length, nRows_imputeStage]
  exact hU c hc

theorem uniformLen_dedupStage (t : Table) : UniformLen (dedupStage t) := by
  intro c2 hc2
  obtain ⟨⟨j, hj⟩, rfl⟩ := List.mem_iff_get.1 hc2
  have hjt : j < t.length := by
    rw [dedupStage, rebuildCols_length] at hj
    exact hj
  rw [nRows_dedupStage]
  have hget : (dedupStage t).get ⟨j, hj⟩ =
      { t.get ⟨j, hjt⟩ with
        cells := (dedupFirst (rowsList t)).map fun r => r.getD (0 + j) none } :=
    rebuildCols_get (dedupFirst (rowsList t)) 0 t j hjt
  rw [hget]
  simp

theorem nRows_coerceStage (t : Table) : nRows (coerceStage t) = nRows t := by
  cases t with
  | nil => rfl
  | cons c t => simp [coerceStage, nRows, coerceCol_length]

theorem uniformLen_coerceStage {t : Table} (hU : UniformLen t) :
    UniformLen (coerceStage t) := by
  intro c' hc'
  obtain ⟨c, hc, rfl⟩ := List.mem_map.1 hc'
  rw [coerceCol_length, nRows_coerceStage]
  exact hU c hc

/-- Whatever the input, every column of `clean_data`'s output has the common
output row count: duplicate removal rebuilds all columns from one row list
and coercion preserves cell counts. -/
theorem uniformLen_cleanData (t : Table) : UniformLen (cleanData t) := by
  rw [cleanData_eq]
  exact uniformLen_coerceStage (uniformLen_dedupStage _)

/-- Every column of the deduplicated table comes from an input column with
the same name and dtype, and its cells are a subset of that column's cells. -/
theorem dedupStage_mem_col {t : Table} (hU : UniformLen t) {c2 : Column}
    (hc2 : c2 ∈ dedupStage t) :
    ∃ c1 ∈ t, c2.name = c1.name ∧ c2.rep = c1.rep ∧ ∀ x ∈ c2.cells, x ∈ c1.cells := by
  obtain ⟨⟨j, hj⟩, rfl⟩ := List.mem_iff_get.1 hc2
  have hjt : j < t.length := by
    rw [dedupStage, rebuildCols_length] at hj
    exact hj
  have hget : (dedupStage t).get ⟨j, hj⟩ =
      { t.get ⟨j, hjt⟩ with
        cells := (dedupFirst (rowsList t)).map fun r => r.getD (0 + j) none } :=
    rebuildCols_get (dedupFirst (rowsList t)) 0 t j hjt
  refine ⟨t.get ⟨j, hjt⟩, List.get_mem _ _ _, ?_, ?_, ?_⟩
  · rw [hget]
  · rw [hget]
  · intro x hx
    rw [hget] at hx
    simp only [List.mem_map] at hx
    obtain ⟨r, hr, rfl⟩ := hx
    have hr' : r ∈ rowsList t := mem_dedupFirst.1 hr
    obtain ⟨i, hi, rfl⟩ := List.mem_map.1 hr'
    rw [List.mem_range] at hi
    have h0j : 0 + j = j := by omega
    rw [h0j, rowAt_getD hjt i]
    have hilen : i < (t.get ⟨j, hjt⟩).cells.length := by
      rw [hU _ (List.get_mem _ _ _)]
      exact hi
    rw [List.getD_eq_getElem _ _ hilen]
    exact List.getElem_mem _

/-- When the rows are already pairwise distinct, duplicate removal returns
the table unchanged. -/
theorem dedupStage_of_nodup {u : Table} (hU : UniformLen u)
    (hnd : (rowsList u).Nodup) : dedupStage u = u := by
  unfold dedupStage
  rw [dedupFirst_of_nodup hnd]
  apply List.ext_get (rebuildCols_length _ _ _)
  intro j h1 h2
  rw [rebuildCols_get (rowsList u) 0 u j h2]
  have h0j : 0 + j = j := by omega
  rw [h0j, rowsList_proj (t := u) (k := j) h2 (hU _ (List.get_mem _ _ _))]

/-- The impute-after-coerce no-op, given what imputation and deduplication
guarantee about the column the coercion loop received. -/
theorem imputeCol_coerceCol_noop {c2 : Column}
    (hsplit : none ∉ c2.cells ∨
      (c2.rep = Dtype.numeric ∧ numVals c2.cells = []) ∨
      (c2.rep ≠ Dtype.numeric ∧ ∀ x ∈ c2.cells, x = none)) :
    imputeCol (coerceCol c2) = coerceCol c2 := by
  rcases hsplit with hnm | ⟨hrep, hnv⟩ | ⟨hrep, hall⟩
  · apply imputeCol_of_not_missing
    rcases coerceCol_cases c2 with h | ⟨_, cs, hn, h⟩ | ⟨_, cs, ht, h⟩
    · rw [h]
      exact hnm
    · rw [h]
      have h2 := tryNumericCells_forall₂ hn
      exact (forall₂_none_preserve h2 (by
        rintro a b (⟨rfl, rfl⟩ | ⟨v, q, rfl, _, rfl⟩) <;> simp)).1 hnm
    · rw [h]
      have h2 := tryTemporalCells_forall₂ ht
      exact (forall₂_none_preserve h2 (by
        rintro a b (⟨rfl, rfl⟩ | ⟨v, st, rfl, _, rfl⟩) <;> simp)).1 hnm
  · have hco : coerceCol c2 = c2 := by
      unfold coerceCol
      rw [if_neg (by simp [hrep])]
    rw [hco]
    exact imputeCol_numeric_noop hrep hnv
  · by_cases htex : c2.rep = Dtype.textual
    · have hptotal : ∀ v ∈ presentVals c2.cells, parseValNum v ≠ none := by
        intro v hv
        exact absurd (hall _ (mem_presentVals.1 hv)) (by simp)
      obtain ⟨cs, hcs⟩ := tryNumericCells_total hptotal
      have hco : coerceCol c2 = { c2 with rep := Dtype.numeric, cells := cs } := by
        unfold coerceCol
        rw [if_pos htex, hcs]
      rw [hco]
      apply imputeCol_numeric_noop rfl
      have h2 := tryNumericCells_forall₂ hcs
      have hall2 := (forall₂_none_preserve h2 (by
        rintro a b (⟨rfl, rfl⟩ | ⟨v, q, rfl, _, rfl⟩) <;> simp)).2 hall
      exact numVals_eq_nil_of_allNone hall2
    · have hco : coerceCol c2 = c2 := by
        unfold coerceCol
        rw [if_neg htex]
      rw [hco]
      exact imputeCol_cat_noop hrep (presentVals_eq_nil_iff.2 hall)

/-- Re-running imputation on a cleaned table changes nothing. -/
theorem imputeStage_cleanData {t : Table} (hU : UniformLen t) :
    imputeStage (cleanData t) = cleanData t := by
  rw [cleanData_eq]
  unfold imputeStage coerceStage
  rw [List.map_map]
  apply List.map_congr_left
  intro c2 hc2
  apply imputeCol_coerceCol_noop
  obtain ⟨c1', hc1', _, hrep2, hsub⟩ :=
    dedupStage_mem_col (uniformLen_imputeStage hU) hc2
  obtain ⟨c1, hc1, rfl⟩ := List.mem_map.1 hc1'
  by_cases hrep1 : c1.rep = Dtype.numeric
  · rcases imputeCol_analysis_numeric hrep1 with hnm | ⟨heq, hnv⟩
    · exact Or.inl fun hx => hnm (hsub _ hx)
    · refine Or.inr (Or.inl ⟨?_, ?_⟩)
      · rw [hrep2, imputeCol_rep]
        exact hrep1
      · apply numVals_eq_nil_of_subset hsub
        rw [heq]
        exact hnv
  · rcases imputeCol_analysis_cat hrep1 with hnm | ⟨heq, hall⟩
    · exact Or.inl fun hx => hnm (hsub _ hx)
    · refine Or.inr (Or.inr ⟨?_, ?_⟩)
      · rw [hrep2, imputeCol_rep]
        exact hrep1
      · intro x hx
        have hx1 := hsub x hx
        rw [heq] at hx1
        exact hall x hx1

/-- Re-running coercion on a cleaned table changes nothing. -/
theorem coerceStage_cleanData (t : Table) :
    coerceStage (cleanData t) = cleanData t := by
  rw [cleanData_eq]
  unfold coerceStage
  rw [List.map_map]
  exact List.map_congr_left fun c _ => coerceCol_idem _

/-- Counterexample to C7 as stated: on the single textual column
`["1", "1.0"]` the first clean keeps both rows (distinct strings) and then
coerces them to the equal numbers `[1, 1]`; the second clean's duplicate
removal drops the second row, so `clean(clean(t))` differs from `clean(t)`. -/
theorem claim_C7_counterexample :
    cleanData (cleanData [⟨"a", Dtype.textual, [some (Val.vstr "1"), some (Val.vstr "1.0")]⟩])
      ≠ cleanData [⟨"a", Dtype.textual, [some (Val.vstr "1"), some (Val.vstr "1.0")]⟩] := by
  have hp1 : parseNum "1" = some 1 := by
    have h : parseNum "1" = some (((1 : ℤ) : ℚ) * ((1 : ℕ) : ℚ)) := rfl
    rw [h]
    simp only [Option.some.injEq]
    norm_num
  have hp2 : parseNum "1.0" = some 1 := by
    have h : parseNum "1.0" =
        some (((1 : ℤ) : ℚ) * (((1 : ℕ) : ℚ) + ((0 : ℕ) : ℚ) / (10 : ℚ) ^ (1 : ℕ))) := rfl
    rw [h]
    simp only [Option.some.injEq]
    norm_num
  have htry : tryNumericCells [some (Val.vstr "1"), some (Val.vstr "1.0")]
      = some [some (Val.vnum 1), some (Val.vnum 1)] := by
    have hstep : tryNumericCells [some (Val.vstr "1"), some (Val.vstr "1.0")] =
        seqOpt [(parseNum "1").map (fun q => some (Val.vnum q)),
                (parseNum "1.0").map (fun q => some (Val.vnum q))] := rfl
    rw [hstep, hp1, hp2]
    rfl
  have hclean : cleanData [⟨"a", Dtype.textual, [some (Val.vstr "1"), some (Val.vstr "1.0")]⟩]
      = [⟨"a", Dtype.numeric, [some (Val.vnum 1), some (Val.vnum 1)]⟩] := by
    rw [cleanData_eq]
    have himp : imputeStage [⟨"a", Dtype.textual, [some (Val.vstr "1"), some (Val.vstr "1.0")]⟩]
        = [⟨"a", Dtype.textual, [some (Val.vstr "1"), some (Val.vstr "1.0")]⟩] := by
      unfold imputeStage
      rw [List.map_cons, List.map_nil, imputeCol_of_not_missing (by decide)]
    have hded : dedupStage [⟨"a", Dtype.textual, [some (Val.vstr "1"), some (Val.vstr "1.0")]⟩]
        = [⟨"a", Dtype.textual, [some (Val.vstr "1"), some (Val.vstr "1.0")]⟩] :=
      dedupStage_of_nodup (by decide) (by decide)
    rw [himp, hded]
    unfold coerceStage
    rw [List.map_cons, List.map_nil]
    congr 1
    unfold coerceCol
    rw [if_pos rfl, htry]
  have hsecond : cleanData [⟨"a", Dtype.numeric, [some (Val.vnum 1), some (Val.vnum 1)]⟩]
      = [⟨"a", Dtype.numeric, [some (Val.vnum 1)]⟩] := by decide
  intro heq
  rw [hclean, hsecond] at heq
  exact absurd heq (by decide)

/-- C7 (amended): `clean_data` is idempotent on every input table with
uniform column lengths whose cleaned result has pairwise-distinct rows —
that is, whenever the final coercion stage does not map two distinct
retained rows to equal values.  (The counterexample shows that when
coercion merges rows, a second clean removes the new duplicates.)  On the
cleaned table, imputation, duplicate removal and coercion are each no-ops. -/
theorem claim_C7_idempotent (t : Table) (hU : UniformLen t)
    (hnodup : (rowsList (cleanData t)).Nodup) :
    cleanData (cleanData t) = cleanData t := by
  have h1 : cleanData (cleanData t) =
      coerceStage (dedupStage (imputeStage (cleanData t))) := cleanData_eq _
  rw [h1, imputeStage_cleanData hU,
    dedupStage_of_nodup (uniformLen_cleanData t) hnodup,
    coerceStage_cleanData]

/-- Witness for C7 (amended): a table the engine cleans without creating new
duplicate rows is a fixed point of a second clean. -/
theorem claim_C7_witness :
    cleanData (cleanData [⟨"a", Dtype.textual, [some (Val.vstr "1"), some (Val.vstr "x")]⟩])
      = cleanData [⟨"a", Dtype.textual, [some (Val.vstr "1"), some (Val.vstr "x")]⟩] :=
  claim_C7_idempotent [⟨"a", Dtype.textual, [some (Val.vstr "1"), some (Val.vstr "x")]⟩]
    (by decide) (by decide)
